import Mathlib

/-!
Shallow embedding of `src/wsds/datasets.py` (the `wsds` streaming dataset
wrapper) and proofs about it.

Modelling conventions:
* Python strings are lists of characters (`PyStr`); `s.startswith(p)` is
  `p.isPrefixOf s`, `"." + k` is `'.' :: k`.
* A sample (a Python dict) is an ordered association list `List (PyStr × V)`;
  `d[k]`, `d[k] = v`, `del d[k]` and `k in d` are `pyGet`, `pySet`, `pyDel`
  and `pyMem`, with Python's ordering behaviour (update in place, insert at
  the end, first occurrence wins; dict keys are unique in every dict Python
  can build).
* A raised Python exception is `Except.error (e : PyError)`.
* The pipeline stages installed by `init_pipeline` come from the external
  `webdataset` library, which is out of scope for this repository; where a
  claim is about stage identity and order we use the `StageKind` tags, and
  where it is about duck-typed capabilities (`hasattr(stage, "set_epoch")`,
  `hasattr(stage, "close")`) we quantify over abstract stage records that
  carry the capability flag and the observable effect of the call.
* The generator `__iter__` with `force_size` set is an unbounded
  `while True` loop; it is embedded with explicit fuel (`iterCappedAux`),
  so that a run that Python would never finish is `none` at every fuel,
  and a terminating run is `some` for all sufficiently large fuel.
-/

namespace Wsds

/-- A Python string, modelled as its list of characters. -/
abbrev PyStr : Type := List Char

/-- The Python exceptions that the embedded code can raise. -/
inductive PyError where
  | nameError
  | valueError
  | assertionError
  | attributeError
  deriving DecidableEq, Repr

/-- A sample: a Python dict from string keys to decoded values, as produced
by the grouping stage, modelled as an ordered association list (Python dicts
preserve insertion order and have unique keys). -/
abbrev Sample (V : Type) : Type := List (PyStr × V)

section PyDict

variable {V : Type}

/-- The key sequence of a dict, in order (Python's `list(d.keys())`). -/
def keysOf (d : List (PyStr × V)) : List PyStr := d.map Prod.fst

/-- Python `d[k]` (first occurrence; keys are unique in real dicts). -/
def pyGet : List (PyStr × V) → PyStr → Option V
  | [], _ => none
  | (k', v) :: d, k => if k' = k then some v else pyGet d k

/-- Python `k in d`. -/
def pyMem : List (PyStr × V) → PyStr → Bool
  | [], _ => false
  | (k', _) :: d, k => if k' = k then true else pyMem d k

/-- Overwrite the value stored under an existing key, keeping its position. -/
def pyUpdate : List (PyStr × V) → PyStr → V → List (PyStr × V)
  | [], _, _ => []
  | (k', v') :: d, k, v =>
      if k' = k then (k, v) :: pyUpdate d k v else (k', v') :: pyUpdate d k v

/-- Python `d[k] = v`: update in place if the key is present, otherwise
insert at the end (dict insertion-order semantics). -/
def pySet (d : List (PyStr × V)) (k : PyStr) (v : V) : List (PyStr × V) :=
  if pyMem d k then pyUpdate d k v else d ++ [(k, v)]

/-- Python `del d[k]`: drop the entry with that key. -/
def pyDel : List (PyStr × V) → PyStr → List (PyStr × V)
  | [], _ => []
  | (k', v') :: d, k => if k' = k then pyDel d k else (k', v') :: pyDel d k

end PyDict

/-- The guard of `fix_dots`: `k.startswith("__") or k.startswith(".")`
(src/wsds/datasets.py line 86). -/
def reservedKey (k : PyStr) : Bool :=
  ['_', '_'].isPrefixOf k || ['.'].isPrefixOf k

section FixDots

variable {V : Type}

/-- One loop-body iteration of `fix_dots` for the snapshot key `k`
(src/wsds/datasets.py lines 85-89):

    if k.startswith("__") or k.startswith("."):
        continue
    sample["." + k] = sample[k]
    del sample[k]

The `none` branch is unreachable when the input is a real dict: every
snapshot key is still present when its own iteration runs (only `del
sample[k]` for that same `k` can remove it). -/
def fixDotsStep (s : List (PyStr × V)) (k : PyStr) : List (PyStr × V) :=
  if reservedKey k then s
  else
    match pyGet s k with
    | some v => pyDel (pySet s ('.' :: k) v) k
    | none => s

/-- Embeds `fix_dots` (src/wsds/datasets.py lines 84-89): the loop iterates
over the snapshot `list(sample.keys())` taken before any mutation, threading
the mutated dict through `fixDotsStep`. -/
def fix_dots (sample : List (PyStr × V)) : List (PyStr × V) :=
  (keysOf sample).foldl fixDotsStep sample

end FixDots

section Transformations

/-- A Python object handed to `interpret_transformations`: either a callable
(sample transformation) or anything that fails `callable(...)`. -/
inductive PyObj (S : Type) where
  | callable (f : S → S)
  | notCallable

/-- The `transformations` argument: a single object or a Python list of
objects (`interpret_transformations` first wraps a non-list into a
one-element list). -/
inductive TransArg (S : Type) where
  | single (o : PyObj S)
  | listOf (l : List (PyObj S))

/-- The `for transformation in transformations: assert callable(...)` loop
of `interpret_transformations` (src/wsds/datasets.py lines 76-78): collect
the callables in order, raising `AssertionError` at the first non-callable. -/
def interpList {S : Type} : List (PyObj S) → Except PyError (List (S → S))
  | [] => .ok []
  | .callable f :: rest => (interpList rest).map (fun r => f :: r)
  | .notCallable :: _ => .error .assertionError

/-- Embeds `interpret_transformations` (src/wsds/datasets.py lines 66-81):
wrap a non-list argument into a one-element list, then check every element
is callable and return them in order. -/
def interpret_transformations {S : Type} (t : TransArg S) : Except PyError (List (S → S)) :=
  match t with
  | .single o => interpList [o]
  | .listOf l => interpList l

/-- Embeds `apply_transformations` (src/wsds/datasets.py lines 52-64) in the
case exercised by the dataset, where `transformations` is already the list
built by `interpret_transformations` (the non-list branch wraps a single
callable and is not reachable from `__iter__`). -/
def apply_transformations {α : Type} (ts : List (α → α)) (x : α) : α :=
  ts.foldl (fun a t => t a) x

end Transformations

section Iteration

variable {V : Type}

/-- The per-sample body of `__iter__` (src/wsds/datasets.py lines 191-193
and 198-200): `fix_dots(sample)` mutates the sample in place, then the
transformation list is applied to it and the result is yielded. -/
def procSample (ts : List (Sample V → Sample V)) (s : Sample V) : Sample V :=
  apply_transformations ts (fix_dots s)

/-- One `for sample in run_pipeline(self.pipeline):` pass of the
`force_size` branch of `__iter__` (src/wsds/datasets.py lines 188-196),
starting at yield counter `c`. The pipeline pass produces the sample list
`xs`. Returns the final counter, the samples yielded during this pass, and
whether the `if count >= self.force_size: return` fired (note the check
runs after the next sample has already been pulled). -/
def runPass (K : Nat) (ts : List (Sample V → Sample V)) :
    Nat → List (Sample V) → Nat × List (Sample V) × Bool
  | c, [] => (c, [], false)
  | c, s :: rest =>
      if K ≤ c then (c, [], true)
      else
        ((runPass K ts (c + 1) rest).1,
         procSample ts s :: (runPass K ts (c + 1) rest).2.1,
         (runPass K ts (c + 1) rest).2.2)

/-- The `while True:` loop of the `force_size` branch of `__iter__`
(src/wsds/datasets.py lines 187-196), with explicit fuel bounding the number
of pipeline passes we are willing to unfold. Each fuel step creates a fresh
`run_pipeline(self.pipeline)` pass over `xs`. `none` means the loop did not
return within `fuel` passes; the loop itself has no other exit, so a run
that is `none` for every fuel is a genuine Python infinite loop. The `Nat`
in the result counts how many passes (calls of `run_pipeline`) were
started. -/
def iterCappedAux (K : Nat) (ts : List (Sample V → Sample V)) (xs : List (Sample V)) :
    Nat → Nat → Option (List (Sample V) × Nat)
  | 0, _ => none
  | fuel + 1, c =>
      if (runPass K ts c xs).2.2 then some ((runPass K ts c xs).2.1, 1)
      else
        match iterCappedAux K ts xs fuel (runPass K ts c xs).1 with
        | none => none
        | some (zs, p) => some ((runPass K ts c xs).2.1 ++ zs, p + 1)

/-- One call of `__iter__` with `force_size = K`, over a restartable source
whose every pass yields the sample list `xs`: the yielded samples together
with the number of pipeline passes started. The fuel `K + 1` passes is
provably enough whenever a pass yields at least one sample. -/
def sizeCappedIter (K : Nat) (ts : List (Sample V → Sample V)) (xs : List (Sample V)) :
    Option (List (Sample V) × Nat) :=
  iterCappedAux K ts xs (K + 1) 0

end Iteration

section Epochs

/-- A pipeline stage as seen by `set_pipeline_epochs`: the external
`webdataset` stage object either exposes a `set_epoch` method or not
(`hasattr(stage, "set_epoch")`), and we record the argument of the last
`set_epoch` call made on it (`none` if it was never called). -/
structure EpochStage where
  hasSetEpoch : Bool
  lastEpoch : Option Int
  deriving DecidableEq, Repr

/-- Embeds `set_pipeline_epochs` (src/wsds/datasets.py lines 38-49): call
`stage.set_epoch(epoch)` on every stage that has the method, skip the
rest. -/
def set_pipeline_epochs (pipeline : List EpochStage) (epoch : Int) : List EpochStage :=
  pipeline.map fun st =>
    if st.hasSetEpoch then { st with lastEpoch := some epoch } else st

/-- The epoch-relevant state of a `SimpleDataset`: its `self.epoch` counter
and its pipeline. -/
structure EpochState where
  epoch : Int
  pipeline : List EpochStage
  deriving DecidableEq, Repr

/-- The state right after `__init__`: `self.epoch = -1`
(src/wsds/datasets.py line 124) and no `set_epoch` call made yet. -/
def initEpochState (pl : List EpochStage) : EpochState :=
  { epoch := -1, pipeline := pl }

/-- The epoch bookkeeping done at the top of every `__iter__` call
(src/wsds/datasets.py lines 182-185): `self.epoch += 1` and then
`set_pipeline_epochs(self.pipeline, self.epoch)`. -/
def iterStart (st : EpochState) : EpochState :=
  { epoch := st.epoch + 1,
    pipeline := set_pipeline_epochs st.pipeline (st.epoch + 1) }

end Epochs

section Construction

/-- The `shards` argument of the constructor, classified the way
`create_url_iterator` classifies it with `isinstance`: a single string, a
list of strings, or anything else. -/
inductive ShardsArg where
  | pyStr (s : PyStr)
  | pyList (l : List PyStr)
  | other
  deriving DecidableEq, Repr

/-- The identity of a pipeline stage installed by `init_pipeline` (the
stages themselves are external `webdataset` objects; only which stage sits
where is decided in this file). -/
inductive StageKind where
  | simpleShardList (urls : List PyStr)
  | splitByWorker
  | streamingOpen
  | fileCache
  | tarFileExpander
  | groupByKeys
  deriving DecidableEq, Repr

/-- Embeds `create_url_iterator` (src/wsds/datasets.py lines 127-134):

    if isinstance(shards, str) and shard.endswith(".json"): ...
    if isinstance(shards, (str, list)):
        return shardlists.SimpleShardList(shards)
    raise ValueError("unknown shard list type")

For a string argument the first condition's left conjunct is `True`, so
Python then evaluates `shard.endswith(".json")` — but no name `shard` is
bound anywhere in the module (the module defines only the imports and the
functions of this file), so every string argument raises `NameError` before
the `SimpleShardList` line is reached. A list argument short-circuits past
the first condition and succeeds; anything else raises `ValueError`. -/
def create_url_iterator (shards : ShardsArg) : Except PyError StageKind :=
  match shards with
  | .pyStr _ => .error .nameError
  | .pyList l => .ok (.simpleShardList l)
  | .other => .error .valueError

/-- Embeds `init_pipeline` (src/wsds/datasets.py lines 136-159). With no
cache directory the pipeline is `[source, split_by_worker, StreamingOpen,
tar_file_expander, group_by_keys]`. With a cache directory, building
`cache.FileCache(cache_dir=cache_dir, cache_size=cache_size, ...)`
evaluates the bare names `cache_dir` and `cache_size`, which are not bound
in the scope of `init_pipeline` (the configuration lives in `self.args`),
so `NameError` is raised. Likewise, when `check_empty` is set, the appended
expression `check_empty` is an unbound module name and raises `NameError`. -/
def init_pipeline (source : StageKind) (cache_dir : Option PyStr) (check_empty : Bool) :
    Except PyError (List StageKind) :=
  match cache_dir with
  | none =>
      if check_empty then .error .nameError
      else .ok [source, .splitByWorker, .streamingOpen, .tarFileExpander, .groupByKeys]
  | some _ => .error .nameError

/-- The attributes a `SimpleDataset` instance carries after `__init__`
(src/wsds/datasets.py lines 96-125). The field `cache` models the Python
attribute `self.cache`: it is `Option`-valued because no statement in the
class ever assigns `self.cache`, so on every instance the attribute is
absent (`none`) and reading it raises `AttributeError`. -/
structure SimpleDataset (V : Type) where
  total_size : Int
  transformations : List (Sample V → Sample V)
  pipeline : List StageKind
  epoch : Int
  force_size : Option Nat
  keep : Bool
  cache : Option (Nat × Nat)

/-- Embeds `SimpleDataset.__init__` (src/wsds/datasets.py lines 96-125), in
the order the constructor runs: interpret the transformations (asserting
callability), resolve the shards argument, build the pipeline, then set
`self.total_size = -1`, `self.epoch = -1`, `self.force_size`, `self.keep`.
Parameters that are merely stored or passed opaquely to external stages
(`cache_size`, `lru_size`, `dataset_name`, `localname`, `base`, `options`,
`select_files`, `rename_files`, `handler`) are omitted: they do not affect
any modelled observable. `self.cache` is never assigned (field `cache` is
`none`). -/
def mkSimpleDataset {V : Type} (shards : ShardsArg) (transformations : TransArg (Sample V))
    (cache_dir : Option PyStr) (check_empty : Bool) (force_size : Option Nat)
    (keep : Bool) : Except PyError (SimpleDataset V) :=
  match interpret_transformations transformations with
  | .error e => .error e
  | .ok ts =>
    match create_url_iterator shards with
    | .error e => .error e
    | .ok source =>
      match init_pipeline source cache_dir check_empty with
      | .error e => .error e
      | .ok pl =>
          .ok { total_size := -1, transformations := ts, pipeline := pl,
                epoch := -1, force_size := force_size, keep := keep, cache := none }

/-- Embeds `get_stats` (src/wsds/datasets.py lines 166-168):
`return self.cache.accesses, self.cache.misses`. Reading an absent
attribute raises `AttributeError`. -/
def get_stats {V : Type} (ds : SimpleDataset V) : Except PyError (Nat × Nat) :=
  match ds.cache with
  | none => .error .attributeError
  | some (a, m) => .ok (a, m)

end Construction

section Teardown

/-- A pipeline stage as seen by `close` (src/wsds/datasets.py lines
216-222): the external stage object either exposes a `close` method or not
(`hasattr(stage, "close")`); `id` identifies the stage so the order of the
`close` calls is observable. -/
structure CloseStage where
  hasClose : Bool
  id : Nat
  deriving DecidableEq, Repr

/-- The `close` calls made by the loop `for stage in pipeline[::-1]:`,
recorded in call order (the loop-local `del stage` has no observable
effect). -/
def closeCalls : List CloseStage → List Nat
  | [] => []
  | st :: rest => (if st.hasClose then [st.id] else []) ++ closeCalls rest

/-- Embeds `SimpleDataset.close` (src/wsds/datasets.py lines 216-222):
close every closeable stage in reverse pipeline order, then run
`self.cache.clear()` — which raises `AttributeError` whenever the `cache`
attribute is absent, and it always is, since no code path assigns it. -/
def closeDataset (pipeline : List CloseStage) (cacheAttr : Option (Nat × Nat)) :
    List Nat × Except PyError Unit :=
  (closeCalls pipeline.reverse,
    match cacheAttr with
    | none => .error .attributeError
    | some _ => .ok ())

end Teardown

/-! ## Lemmas about the dict operations -/

section PyDictLemmas

variable {V : Type}

theorem keysOf_cons (p : PyStr × V) (d : List (PyStr × V)) :
    keysOf (p :: d) = p.1 :: keysOf d := rfl

theorem mem_keysOf_iff {d : List (PyStr × V)} {x : PyStr} :
    x ∈ keysOf d ↔ ∃ p, p ∈ d ∧ p.1 = x := by
  unfold keysOf
  exact List.mem_map

theorem pyMem_eq_false {d : List (PyStr × V)} {k : PyStr}
    (h : ∀ p ∈ d, p.1 ≠ k) : pyMem d k = false := by
  induction d with
  | nil => rfl
  | cons p d ih =>
      obtain ⟨k', v'⟩ := p
      have h1 : k' ≠ k := h (k', v') (List.mem_cons_self _ _)
      simp only [pyMem, if_neg h1]
      exact ih fun q hq => h q (List.mem_cons_of_mem _ hq)

theorem pyDel_eq_self {d : List (PyStr × V)} {k : PyStr}
    (h : ∀ p ∈ d, p.1 ≠ k) : pyDel d k = d := by
  induction d with
  | nil => rfl
  | cons p d ih =>
      obtain ⟨k', v'⟩ := p
      have h1 : k' ≠ k := h (k', v') (List.mem_cons_self _ _)
      simp only [pyDel, if_neg h1]
      rw [ih fun q hq => h q (List.mem_cons_of_mem _ hq)]

theorem pyGet_eq_none_iff {d : List (PyStr × V)} {k : PyStr} :
    pyGet d k = none ↔ ∀ p ∈ d, p.1 ≠ k := by
  induction d with
  | nil => simp [pyGet]
  | cons p d ih =>
      obtain ⟨k', v'⟩ := p
      by_cases h : k' = k
      · subst h
        constructor
        · intro hnone
          rw [show pyGet ((k', v') :: d) k' = some v' by simp [pyGet]] at hnone
          exact Option.noConfusion hnone
        · intro hall
          exact absurd rfl (hall (k', v') (List.mem_cons_self _ _))
      · simp only [pyGet, if_neg h, ih, List.mem_cons]
        constructor
        · rintro hall q (rfl | hq)
          · exact h
          · exact hall q hq
        · intro hall q hq
          exact hall q (Or.inr hq)

theorem keysOf_pyUpdate (d : List (PyStr × V)) (k : PyStr) (v : V) :
    keysOf (pyUpdate d k v) = keysOf d := by
  induction d with
  | nil => rfl
  | cons p d ih =>
      obtain ⟨k', v'⟩ := p
      by_cases h : k' = k
      · subst h
        simp [pyUpdate, keysOf_cons, ih]
      · simp [pyUpdate, h, keysOf_cons, ih]

theorem mem_keysOf_pySet {d : List (PyStr × V)} {k x : PyStr} {v : V}
    (h : x ∈ keysOf (pySet d k v)) : x ∈ keysOf d ∨ x = k := by
  unfold pySet at h
  by_cases hm : pyMem d k
  · rw [if_pos hm, keysOf_pyUpdate] at h
    exact Or.inl h
  · rw [if_neg hm] at h
    unfold keysOf at h
    rw [List.map_append] at h
    rcases List.mem_append.mp h with h1 | h1
    · exact Or.inl h1
    · simp at h1
      exact Or.inr h1

theorem mem_keysOf_pySet_of_mem {d : List (PyStr × V)} {k x : PyStr} {v : V}
    (h : x ∈ keysOf d) : x ∈ keysOf (pySet d k v) := by
  unfold pySet
  by_cases hm : pyMem d k
  · rw [if_pos hm, keysOf_pyUpdate]
    exact h
  · rw [if_neg hm]
    unfold keysOf
    rw [List.map_append]
    exact List.mem_append.mpr (Or.inl h)

theorem mem_keysOf_pyDel {d : List (PyStr × V)} {k x : PyStr}
    (h : x ∈ keysOf (pyDel d k)) : x ∈ keysOf d ∧ x ≠ k := by
  induction d with
  | nil => exact absurd h (List.not_mem_nil _)
  | cons p d ih =>
      obtain ⟨k', v'⟩ := p
      by_cases he : k' = k
      · subst he
        rw [show pyDel ((k', v') :: d) k' = pyDel d k' by simp [pyDel]] at h
        obtain ⟨h1, h2⟩ := ih h
        exact ⟨List.mem_cons_of_mem _ h1, h2⟩
      · rw [show pyDel ((k', v') :: d) k = (k', v') :: pyDel d k by simp [pyDel, he]] at h
        rcases List.mem_cons.mp h with rfl | h1
        · exact ⟨List.mem_cons_self _ _, he⟩
        · obtain ⟨h1, h2⟩ := ih h1
          exact ⟨List.mem_cons_of_mem _ h1, h2⟩

theorem mem_keysOf_pyDel_of_mem {d : List (PyStr × V)} {k x : PyStr}
    (h : x ∈ keysOf d) (hx : x ≠ k) : x ∈ keysOf (pyDel d k) := by
  induction d with
  | nil => exact absurd h (List.not_mem_nil _)
  | cons p d ih =>
      obtain ⟨k', v'⟩ := p
      rcases List.mem_cons.mp h with he | h1
      · subst he
        rw [show pyDel ((x, v') :: d) k = (x, v') :: pyDel d k by simp [pyDel, hx]]
        exact List.mem_cons_self _ _
      · by_cases he : k' = k
        · rw [show pyDel ((k', v') :: d) k = pyDel d k by simp [pyDel, he]]
          exact ih h1
        · rw [show pyDel ((k', v') :: d) k = (k', v') :: pyDel d k by simp [pyDel, he]]
          exact List.mem_cons_of_mem _ (ih h1)

theorem pyGet_of_mem_nodup :
    ∀ (s : List (PyStr × V)) (k : PyStr) (v : V),
      (k, v) ∈ s → (keysOf s).Nodup → pyGet s k = some v := by
  intro s
  induction s with
  | nil => intro k v h _; exact absurd h (List.not_mem_nil _)
  | cons p s ih =>
      intro k v h hnd
      obtain ⟨k1, v1⟩ := p
      rw [keysOf_cons, List.nodup_cons] at hnd
      rcases List.mem_cons.mp h with he | hmem
      · obtain ⟨rfl, rfl⟩ := Prod.mk.injEq .. ▸ he
        simp [pyGet]
      · have hne : k1 ≠ k := by
          intro he
          subst he
          exact hnd.1 (mem_keysOf_iff.mpr ⟨(k1, v), hmem, rfl⟩)
        simp only [pyGet, if_neg hne]
        exact ih k v hmem hnd.2

end PyDictLemmas

/-! ## Lemmas about key normalization (fix_dots) -/

section FixDotsLemmas

variable {V : Type}

theorem reservedKey_dot (x : PyStr) : reservedKey ('.' :: x) = true := by
  simp [reservedKey, List.isPrefixOf]

theorem ne_dot_of_not_reserved {k : PyStr} (h : reservedKey k = false) (x : PyStr) :
    k ≠ '.' :: x := by
  intro he
  rw [he, reservedKey_dot] at h
  exact Bool.noConfusion h

theorem ne_of_reserved_of_not_reserved {x k : PyStr}
    (hx : reservedKey x = true) (hk : reservedKey k = false) : x ≠ k := by
  intro he
  rw [he, hk] at hx
  exact Bool.noConfusion hx

/-- The head step of the `fix_dots` loop on a plain (non-reserved) key that
sits at the front of the not-yet-processed part of the dict. -/
theorem fixDotsStep_head (k : PyStr) (v : V) (rest acc : List (PyStr × V))
    (hkres : reservedKey k = false)
    (hkrest : ∀ p ∈ rest, p.1 ≠ k) (haccne : ∀ p ∈ acc, p.1 ≠ k)
    (hrestnd : ∀ p ∈ rest, p.1 ≠ '.' :: k) (haccnd : ∀ p ∈ acc, p.1 ≠ '.' :: k) :
    fixDotsStep ((k, v) :: (rest ++ acc)) k = rest ++ (acc ++ [('.' :: k, v)]) := by
  have hget : pyGet ((k, v) :: (rest ++ acc)) k = some v := by simp [pyGet]
  have hmem : pyMem ((k, v) :: (rest ++ acc)) ('.' :: k) = false := by
    apply pyMem_eq_false
    intro p hp
    rcases List.mem_cons.mp hp with rfl | hp1
    · exact ne_dot_of_not_reserved hkres k
    · rcases List.mem_append.mp hp1 with hp2 | hp2
      · exact hrestnd p hp2
      · exact haccnd p hp2
  have hdel : pyDel (((k, v) :: (rest ++ acc)) ++ [('.' :: k, v)]) k
      = rest ++ (acc ++ [('.' :: k, v)]) := by
    rw [show ((k, v) :: (rest ++ acc)) ++ [('.' :: k, v)]
          = (k, v) :: (rest ++ (acc ++ [('.' :: k, v)])) by simp]
    rw [show pyDel ((k, v) :: (rest ++ (acc ++ [('.' :: k, v)]))) k
          = pyDel (rest ++ (acc ++ [('.' :: k, v)])) k by simp [pyDel]]
    apply pyDel_eq_self
    intro p hp
    rcases List.mem_append.mp hp with hp1 | hp1
    · exact hkrest p hp1
    · rcases List.mem_append.mp hp1 with hp2 | hp2
      · exact haccne p hp2
      · rcases List.mem_singleton.mp hp2 with rfl
        exact fun he => ne_dot_of_not_reserved hkres k he.symm
  simp only [fixDotsStep, hkres, Bool.false_eq_true, if_false, hget]
  rw [show pySet ((k, v) :: (rest ++ acc)) ('.' :: k) v
        = ((k, v) :: (rest ++ acc)) ++ [('.' :: k, v)] by simp [pySet, hmem]]
  exact hdel

/-- Running the `fix_dots` loop over the snapshot keys of the unprocessed
part `rest` (all plain, distinct), with the already-produced dotted entries
sitting in `acc` behind it, dots every remaining entry in order. -/
theorem foldl_fixDotsStep_plain :
    ∀ (rest acc : List (PyStr × V)),
      (∀ p ∈ rest, reservedKey p.1 = false) →
      (keysOf rest).Nodup →
      (∀ p ∈ acc, reservedKey p.1 = true) →
      (∀ p ∈ rest, ('.' :: p.1) ∉ keysOf acc) →
      (keysOf rest).foldl fixDotsStep (rest ++ acc)
        = acc ++ rest.map (fun p => ('.' :: p.1, p.2)) := by
  intro rest
  induction rest with
  | nil => intro acc _ _ _ _; simp [keysOf]
  | cons p rest ih =>
      obtain ⟨k, v⟩ := p
      intro acc hplain hnd hacc hdis
      have hkres : reservedKey k = false := hplain (k, v) (List.mem_cons_self _ _)
      have hndk : k ∉ keysOf rest ∧ (keysOf rest).Nodup := by
        rw [keysOf_cons, List.nodup_cons] at hnd
        exact hnd
      have hkrest : ∀ p ∈ rest, p.1 ≠ k := by
        intro p hp he
        exact hndk.1 (mem_keysOf_iff.mpr ⟨p, hp, he⟩)
      have haccne : ∀ p ∈ acc, p.1 ≠ k :=
        fun p hp => ne_of_reserved_of_not_reserved (hacc p hp) hkres
      have hrestnd : ∀ p ∈ rest, p.1 ≠ '.' :: k :=
        fun p hp => ne_dot_of_not_reserved (hplain p (List.mem_cons_of_mem _ hp)) k
      have haccnd : ∀ p ∈ acc, p.1 ≠ '.' :: k := by
        intro p hp he
        exact hdis (k, v) (List.mem_cons_self _ _) (mem_keysOf_iff.mpr ⟨p, hp, he⟩)
      have hrec := ih (acc ++ [('.' :: k, v)])
        (fun p hp => hplain p (List.mem_cons_of_mem _ hp))
        hndk.2
        (by
          intro p hp
          rcases List.mem_append.mp hp with hp1 | hp1
          · exact hacc p hp1
          · rcases List.mem_singleton.mp hp1 with rfl
            exact reservedKey_dot k)
        (by
          intro p hp hmem
          rcases mem_keysOf_iff.mp hmem with ⟨q, hq, hqk⟩
          rcases List.mem_append.mp hq with hq1 | hq1
          · exact hdis p (List.mem_cons_of_mem _ hp) (mem_keysOf_iff.mpr ⟨q, hq1, hqk⟩)
          · rcases List.mem_singleton.mp hq1 with rfl
            have : p.1 = k := by
              have h3 := hqk
              simp only at h3
              exact ((List.cons.injEq .. ▸ h3).2).symm
            exact hkrest p hp this)
      rw [keysOf_cons, List.foldl_cons, List.cons_append,
        fixDotsStep_head k v rest acc hkres hkrest haccne hrestnd haccnd, hrec]
      simp

/-- On a dict whose keys are distinct and none reserved, `fix_dots` replaces
every entry `(k, v)` by `("." ++ k, v)`, in order. -/
theorem fix_dots_plain_eq (s : List (PyStr × V))
    (hnd : (keysOf s).Nodup)
    (hplain : ∀ p ∈ s, reservedKey p.1 = false) :
    fix_dots s = s.map (fun p => ('.' :: p.1, p.2)) := by
  have h := foldl_fixDotsStep_plain s [] hplain hnd
    (fun p hp => absurd hp (List.not_mem_nil _))
    (fun p _ => List.not_mem_nil _)
  rw [List.append_nil] at h
  simpa [fix_dots] using h

theorem pyGet_map_dot (s : List (PyStr × V)) (k : PyStr) :
    pyGet (s.map (fun p => ('.' :: p.1, p.2))) ('.' :: k) = pyGet s k := by
  induction s with
  | nil => rfl
  | cons p s ih =>
      obtain ⟨k1, v1⟩ := p
      by_cases h : k1 = k
      · subst h
        simp [pyGet]
      · have h2 : ('.' :: k1) ≠ ('.' :: k) := by
          intro he
          exact h (List.cons.injEq .. ▸ he).2
        simp only [List.map_cons, pyGet, if_neg h, if_neg h2]
        exact ih

theorem fixDotsStep_reserved {k : PyStr} (s : List (PyStr × V))
    (h : reservedKey k = true) : fixDotsStep s k = s := by
  simp [fixDotsStep, h]

theorem foldl_fixDotsStep_reserved :
    ∀ (ks : List PyStr) (s : List (PyStr × V)),
      (∀ k ∈ ks, reservedKey k = true) → ks.foldl fixDotsStep s = s := by
  intro ks
  induction ks with
  | nil => intro s _; rfl
  | cons k ks ih =>
      intro s h
      rw [List.foldl_cons, fixDotsStep_reserved s (h k (List.mem_cons_self _ _))]
      exact ih s fun k' hk' => h k' (List.mem_cons_of_mem _ hk')

/-- Invariant for the `fix_dots` loop: every key of the running dict is
either still in the unprocessed snapshot or already reserved, hence at the
end every key is reserved. -/
theorem keys_reserved_after :
    ∀ (ks : List PyStr) (s : List (PyStr × V)),
      (∀ x ∈ keysOf s, x ∈ ks ∨ reservedKey x = true) →
      ∀ x ∈ keysOf (ks.foldl fixDotsStep s), reservedKey x = true := by
  intro ks
  induction ks with
  | nil =>
      intro s h x hx
      rcases h x hx with h1 | h1
      · exact absurd h1 (List.not_mem_nil _)
      · exact h1
  | cons k ks ih =>
      intro s h
      rw [List.foldl_cons]
      apply ih
      intro x hx
      by_cases hres : reservedKey k = true
      · rw [fixDotsStep_reserved s hres] at hx
        rcases h x hx with h1 | h1
        · rcases List.mem_cons.mp h1 with rfl | h2
          · exact Or.inr hres
          · exact Or.inl h2
        · exact Or.inr h1
      · have hres' : reservedKey k = false := Bool.eq_false_iff.mpr hres
        cases hg : pyGet s k with
        | none =>
            rw [show fixDotsStep s k = s by simp [fixDotsStep, hres', hg]] at hx
            rcases h x hx with h1 | h1
            · rcases List.mem_cons.mp h1 with rfl | h2
              · exfalso
                rcases mem_keysOf_iff.mp hx with ⟨p, hp, hpk⟩
                exact pyGet_eq_none_iff.mp hg p hp hpk
              · exact Or.inl h2
            · exact Or.inr h1
        | some v =>
            rw [show fixDotsStep s k = pyDel (pySet s ('.' :: k) v) k by
                  simp [fixDotsStep, hres', hg]] at hx
            obtain ⟨hx1, hx2⟩ := mem_keysOf_pyDel hx
            rcases mem_keysOf_pySet hx1 with hx3 | rfl
            · rcases h x hx3 with h1 | h1
              · rcases List.mem_cons.mp h1 with rfl | h2
                · exact absurd rfl hx2
                · exact Or.inl h2
              · exact Or.inr h1
            · exact Or.inr (reservedKey_dot k)

theorem keys_fix_dots_reserved (s : List (PyStr × V)) :
    ∀ x ∈ keysOf (fix_dots s), reservedKey x = true :=
  keys_reserved_after (keysOf s) s fun _ hx => Or.inl hx

/-- Reserved keys survive the whole `fix_dots` loop. -/
theorem reserved_key_survives :
    ∀ (ks : List PyStr) (s : List (PyStr × V)) (x : PyStr),
      reservedKey x = true → x ∈ keysOf s → x ∈ keysOf (ks.foldl fixDotsStep s) := by
  intro ks
  induction ks with
  | nil => intro s x _ hx; exact hx
  | cons k ks ih =>
      intro s x hres hx
      rw [List.foldl_cons]
      apply ih _ x hres
      by_cases hkres : reservedKey k = true
      · rwa [fixDotsStep_reserved s hkres]
      · have hkres' : reservedKey k = false := Bool.eq_false_iff.mpr hkres
        cases hg : pyGet s k with
        | none => rwa [show fixDotsStep s k = s by simp [fixDotsStep, hkres', hg]]
        | some v =>
            rw [show fixDotsStep s k = pyDel (pySet s ('.' :: k) v) k by
                  simp [fixDotsStep, hkres', hg]]
            exact mem_keysOf_pyDel_of_mem (mem_keysOf_pySet_of_mem hx)
              (ne_of_reserved_of_not_reserved hres hkres')

end FixDotsLemmas

/-! ## Lemmas about the size-capped iteration loop -/

section IterationLemmas

variable {V : Type}

/-- A pass that fits entirely under the cap yields all its samples and does
not return. -/
theorem runPass_full (K : Nat) (ts : List (Sample V → Sample V)) :
    ∀ (xs : List (Sample V)) (c : Nat), c + xs.length ≤ K →
      runPass K ts c xs = (c + xs.length, xs.map (procSample ts), false) := by
  intro xs
  induction xs with
  | nil => intro c _; simp [runPass]
  | cons s rest ih =>
      intro c h
      rw [List.length_cons] at h
      have hc : ¬ K ≤ c := by omega
      rw [show runPass K ts c (s :: rest)
            = ((runPass K ts (c + 1) rest).1,
               procSample ts s :: (runPass K ts (c + 1) rest).2.1,
               (runPass K ts (c + 1) rest).2.2) by simp [runPass, hc]]
      rw [ih (c + 1) (by omega)]
      simp only [List.length_cons, List.map_cons]
      rw [show c + 1 + rest.length = c + (rest.length + 1) from by omega]

/-- A pass that crosses the cap yields exactly the samples up to the cap,
then returns on the next pull. -/
theorem runPass_trunc (K : Nat) (ts : List (Sample V → Sample V)) :
    ∀ (xs : List (Sample V)) (c : Nat), c ≤ K → K < c + xs.length →
      runPass K ts c xs = (K, (xs.take (K - c)).map (procSample ts), true) := by
  intro xs
  induction xs with
  | nil =>
      intro c h1 h2
      rw [List.length_nil] at h2
      omega
  | cons s rest ih =>
      intro c h1 h2
      rw [List.length_cons] at h2
      by_cases hc : K ≤ c
      · have hck : c = K := by omega
        subst hck
        rw [show runPass c ts c (s :: rest) = (c, [], true) by simp [runPass]]
        rw [show c - c = 0 by omega]
        simp
      · rw [show runPass K ts c (s :: rest)
              = ((runPass K ts (c + 1) rest).1,
                 procSample ts s :: (runPass K ts (c + 1) rest).2.1,
                 (runPass K ts (c + 1) rest).2.2) by simp [runPass, hc]]
        rw [ih (c + 1) (by omega) (by omega)]
        rw [show K - c = (K - (c + 1)) + 1 by omega, List.take_succ_cons, List.map_cons]

/-- With an empty pass the loop never returns: the capped iteration is
`none` at every fuel (the Python `while True` loop runs forever). -/
theorem iterCappedAux_nil (K : Nat) (ts : List (Sample V → Sample V)) :
    ∀ (fuel c : Nat), iterCappedAux K ts ([] : List (Sample V)) fuel c = none := by
  intro fuel
  induction fuel with
  | zero => intro c; rfl
  | succ fuel ih =>
      intro c
      simp only [iterCappedAux]
      rw [show runPass K ts c ([] : List (Sample V)) = (c, [], false) from rfl]
      simp [ih c]

/-- Exact behaviour of the capped loop over a nonempty pass: starting from
counter `c ≤ K` with enough fuel, it returns after `(K - c) / M + 1` passes
having yielded `K - c` samples. -/
theorem iterCappedAux_spec (K : Nat) (ts : List (Sample V → Sample V))
    (xs : List (Sample V)) (hx : xs ≠ []) :
    ∀ (fuel c : Nat), c ≤ K → (K - c) / xs.length + 1 ≤ fuel →
      ∃ ys, iterCappedAux K ts xs fuel c = some (ys, (K - c) / xs.length + 1)
        ∧ ys.length = K - c := by
  have hM : 0 < xs.length := List.length_pos.mpr hx
  intro fuel
  induction fuel with
  | zero => intro c _ hf; exact absurd hf (Nat.not_succ_le_zero _)
  | succ fuel ih =>
      intro c hc hf
      by_cases hcase : c + xs.length ≤ K
      · -- full pass, loop continues
        have h1 := runPass_full K ts xs c hcase
        have hdiv : (K - c) / xs.length = (K - (c + xs.length)) / xs.length + 1 := by
          rw [show K - c = (K - (c + xs.length)) + xs.length by omega]
          exact Nat.add_div_right _ hM
        obtain ⟨ys, hys, hlen⟩ := ih (c + xs.length) (by omega) (by omega)
        refine ⟨xs.map (procSample ts) ++ ys, ?_, ?_⟩
        · simp only [iterCappedAux, h1]
          simp only [Bool.false_eq_true, if_false]
          rw [hys, hdiv]
        · rw [List.length_append, List.length_map, hlen]
          omega
      · -- truncating pass, loop returns
        have h1 := runPass_trunc K ts xs c hc (by omega)
        have hdiv0 : (K - c) / xs.length = 0 := Nat.div_eq_of_lt (by omega)
        refine ⟨(xs.take (K - c)).map (procSample ts), ?_, ?_⟩
        · simp only [iterCappedAux, h1, if_true]
          rw [hdiv0]
        · rw [List.length_map, List.length_take]
          omega

end IterationLemmas

/-! ## Lemmas about epoch propagation -/

section EpochLemmas

theorem iterStart_epoch (st : EpochState) : (iterStart st).epoch = st.epoch + 1 := rfl

theorem iterate_iterStart_epoch :
    ∀ (n : Nat) (st : EpochState), (iterStart^[n] st).epoch = st.epoch + n := by
  intro n
  induction n with
  | zero => intro st; simp
  | succ n ih =>
      intro st
      rw [Function.iterate_succ_apply', iterStart_epoch, ih]
      push_cast
      ring

end EpochLemmas

/-! ## Lemmas about the transformation interpreter -/

section TransLemmas

theorem interpList_callables {S : Type} (fs : List (S → S)) :
    interpList (fs.map PyObj.callable) = .ok fs := by
  induction fs with
  | nil => rfl
  | cons f fs ih => simp [interpList, ih, Except.map]

end TransLemmas

/-! ## Claims -/

/-- C1 (as stated, refuted at K = 4, M = 2): the claim says that for every
0 < M < K one call to iterate yields exactly K samples across exactly
⌈K/M⌉ pipeline restarts. With K = 4 and a source yielding M = 2 samples per
pass, the code does yield exactly 4 samples, but it starts 3 pipeline
passes, not ⌈4/2⌉ = 2: the two full passes end with the counter exactly at
the cap without the in-loop return check firing, so a third pass is started
and its first sample pulled before the loop returns. -/
theorem C1_counterexample :
    sizeCappedIter 4 ([] : List (Sample Nat → Sample Nat)) [[], []]
      = some ([[], [], [], []], 3)
    ∧ (3 : Nat) ≠ (4 + 2 - 1) / 2 := by
  constructor
  · rfl
  · decide

/-- C1 (amended): with force_size = K over a source yielding the samples
`xs` (M = |xs|, 0 < M < K) per pass, one call to iterate yields exactly K
samples, and the pipeline is started ⌊K/M⌋ + 1 times in total; this equals
⌈K/M⌉, with the final pass truncated, exactly when M does not divide K
(e.g. K = 5, M = 2: five yields across 5/2 + 1 = 3 passes, 2+2+1), and it
is ⌈K/M⌉ + 1 when M divides K, because the cap is only checked after the
next sample has been pulled, so one extra pass is begun that yields
nothing. -/
theorem C1_force_size_amended (K M : Nat) (ts : List (Sample Nat → Sample Nat))
    (xs : List (Sample Nat)) (hlen : xs.length = M) (hM : 0 < M) (_hMK : M < K) :
    ∃ ys, sizeCappedIter K ts xs = some (ys, K / M + 1) ∧ ys.length = K := by
  have hx : xs ≠ [] := by
    intro he
    rw [he] at hlen
    simp at hlen
    omega
  have h := iterCappedAux_spec K ts xs hx (K + 1) 0 (Nat.zero_le K)
    (by
      rw [Nat.sub_zero, hlen]
      have := Nat.div_le_self K M
      omega)
  rw [Nat.sub_zero, hlen] at h
  obtain ⟨ys, hys, hyl⟩ := h
  exact ⟨ys, hys, hyl⟩

/-- C1 witness: the spec's own example, K = 5 over a two-sample pass,
yields exactly 5 samples across 5/2 + 1 = 3 pipeline passes. -/
theorem C1_witness :
    ∃ ys, sizeCappedIter 5 ([] : List (Sample Nat → Sample Nat)) [[], []]
        = some (ys, 5 / 2 + 1) ∧ ys.length = 5 :=
  C1_force_size_amended 5 2 [] [[], []] (by decide) (by decide) (by decide)

/-- C2: on a sample dict none of whose keys starts with the reserved
double-underscore prefix or a dot, `fix_dots` removes every original key k,
binds "." ++ k to the value k had, and leaves the number of entries
unchanged. (The dict hypothesis that keys are distinct is part of being a
Python mapping.) -/
theorem C2_fix_dots_normalization (s : List (PyStr × Nat))
    (hnd : (keysOf s).Nodup)
    (hplain : ∀ p ∈ s, reservedKey p.1 = false) :
    (∀ k ∈ keysOf s, k ∉ keysOf (fix_dots s))
    ∧ (∀ (k : PyStr) (v : Nat), (k, v) ∈ s → pyGet (fix_dots s) ('.' :: k) = some v)
    ∧ (fix_dots s).length = s.length := by
  have heq : fix_dots s = s.map (fun p => ('.' :: p.1, p.2)) :=
    fix_dots_plain_eq s hnd hplain
  refine ⟨?_, ?_, ?_⟩
  · intro k hk hk2
    have hres : reservedKey k = true := keys_fix_dots_reserved s k hk2
    rcases mem_keysOf_iff.mp hk with ⟨p, hp, hpk⟩
    rw [← hpk] at hres
    rw [hplain p hp] at hres
    exact Bool.noConfusion hres
  · intro k v hkv
    rw [heq, pyGet_map_dot]
    exact pyGet_of_mem_nodup s k v hkv hnd
  · rw [heq, List.length_map]

/-- C2 witness: on the two-entry dict a ↦ 1, b ↦ 2 the normalized dict
binds ".a" to 1. -/
theorem C2_witness :
    pyGet (fix_dots [((['a'] : PyStr), (1 : Nat)), (['b'], 2)]) ('.' :: ['a'])
      = some 1 :=
  (C2_fix_dots_normalization [((['a'] : PyStr), (1 : Nat)), (['b'], 2)]
      (by decide) (by decide)).2.1 ['a'] 1 (by decide)

/-- C3: `fix_dots` is idempotent — running it a second time changes nothing,
because after one run every key starts with a dot or the double-underscore
prefix and is skipped — and keys that already start with a dot or the
reserved double-underscore prefix survive (they are never re-prefixed:
the key itself, unchanged, is still a key of the result). -/
theorem C3_fix_dots_idempotent (s : List (PyStr × Nat)) :
    fix_dots (fix_dots s) = fix_dots s
    ∧ ∀ k ∈ keysOf s, reservedKey k = true → k ∈ keysOf (fix_dots s) := by
  constructor
  · show (keysOf (fix_dots s)).foldl fixDotsStep (fix_dots s) = fix_dots s
    exact foldl_fixDotsStep_reserved (keysOf (fix_dots s)) (fix_dots s)
      (keys_fix_dots_reserved s)
  · intro k hk hres
    exact reserved_key_survives (keysOf s) s k hres hk

/-- C3 witness: the already-dotted key ".a" of the dict
{".a" ↦ 1, "b" ↦ 2} is still a key after normalization. -/
theorem C3_witness :
    (['.', 'a'] : PyStr) ∈ keysOf (fix_dots [((['.', 'a'] : PyStr), (1 : Nat)), (['b'], 2)]) :=
  (C3_fix_dots_idempotent [((['.', 'a'] : PyStr), (1 : Nat)), (['b'], 2)]).2
    ['.', 'a'] (by decide) (by decide)

/-- C10: the size-capped loop terminates only if each pass makes progress.
With force_size = K > 0 over a pipeline that yields no samples per pass,
the loop restarts the pipeline forever (it is `none` at every fuel bound,
i.e. no number of passes makes it return); over any pipeline pass yielding
at least one sample it terminates with exactly K yields. -/
theorem C10_termination (K : Nat) (ts : List (Sample Nat → Sample Nat)) (hK : 0 < K) :
    (∀ fuel : Nat, iterCappedAux K ts ([] : List (Sample Nat)) fuel 0 = none)
    ∧ ∀ xs : List (Sample Nat), xs ≠ [] →
        ∃ ys p, sizeCappedIter K ts xs = some (ys, p) ∧ ys.length = K := by
  constructor
  · intro fuel
    exact iterCappedAux_nil K ts fuel 0
  · intro xs hx
    have h := iterCappedAux_spec K ts xs hx (K + 1) 0 (Nat.zero_le K)
      (by
        have h1 := Nat.div_le_self (K - 0) xs.length
        omega)
    obtain ⟨ys, hys, hyl⟩ := h
    refine ⟨ys, (K - 0) / xs.length + 1, hys, ?_⟩
    rw [hyl, Nat.sub_zero]

/-- C10 witness: with K = 1 and an empty pass the loop is still running
after 3 passes (and at any fuel), while a one-sample pass terminates with
exactly one yield. -/
theorem C10_witness :
    iterCappedAux 1 ([] : List (Sample Nat → Sample Nat)) ([] : List (Sample Nat)) 3 0 = none
    ∧ ∃ ys p, sizeCappedIter 1 ([] : List (Sample Nat → Sample Nat)) [[]]
        = some (ys, p) ∧ ys.length = 1 :=
  ⟨(C10_termination 1 [] (by decide)).1 3,
   (C10_termination 1 [] (by decide)).2 [[]] (by decide)⟩

/-- C4: the epoch counter starts at −1 at construction, and after N ≥ 1
iteration starts it equals N − 1, is strictly larger than after any earlier
number of starts (monotone over the dataset's lifetime), and every pipeline
stage exposing a `set_epoch` operation has last been called with
epoch = N − 1. -/
theorem C4_epoch_propagation (pl : List EpochStage) (N : Nat) (hN : 1 ≤ N) :
    (initEpochState pl).epoch = -1
    ∧ (iterStart^[N] (initEpochState pl)).epoch = (N : Int) - 1
    ∧ (∀ M : Nat, M < N →
        (iterStart^[M] (initEpochState pl)).epoch
          < (iterStart^[N] (initEpochState pl)).epoch)
    ∧ ∀ st ∈ (iterStart^[N] (initEpochState pl)).pipeline,
        st.hasSetEpoch = true → st.lastEpoch = some ((N : Int) - 1) := by
  have hep : ∀ n : Nat, (iterStart^[n] (initEpochState pl)).epoch = (n : Int) - 1 := by
    intro n
    rw [iterate_iterStart_epoch]
    show (-1 : Int) + n = (n : Int) - 1
    omega
  refine ⟨rfl, hep N, ?_, ?_⟩
  · intro M hM
    rw [hep M, hep N]
    have : (M : Int) < (N : Int) := by exact_mod_cast hM
    omega
  · obtain ⟨N', rfl⟩ : ∃ N', N = N' + 1 := ⟨N - 1, by omega⟩
    rw [Function.iterate_succ_apply']
    intro st hst hset
    have hprev : (iterStart^[N'] (initEpochState pl)).epoch = (N' : Int) - 1 := hep N'
    simp only [iterStart, set_pipeline_epochs] at hst
    rcases List.mem_map.mp hst with ⟨st0, hst0, hmap⟩
    by_cases h0 : st0.hasSetEpoch = true
    · rw [if_pos h0] at hmap
      rw [← hmap]
      show some ((iterStart^[N'] (initEpochState pl)).epoch + 1) = some (((N' : Nat) + 1 : Int) - 1)
      rw [hprev]
      congr 1
      omega
    · rw [if_neg h0] at hmap
      rw [← hmap] at hset
      exact absurd hset h0

/-- C4 witness: after two iteration starts over a pipeline with one
epoch-aware and one epoch-oblivious stage, the dataset's epoch counter is
2 − 1 = 1. -/
theorem C4_witness :
    (iterStart^[2] (initEpochState
        [{ hasSetEpoch := true, lastEpoch := none },
         { hasSetEpoch := false, lastEpoch := some 7 }])).epoch = (2 : Int) - 1 :=
  (C4_epoch_propagation
      [{ hasSetEpoch := true, lastEpoch := none },
       { hasSetEpoch := false, lastEpoch := some 7 }] 2 (by decide)).2.1

/-- C5 (the claim is right, the code has a slip): the claim says a single
string shards argument is resolved into a shard-listing producer without
raising — the function's own second branch (`isinstance(shards, (str,
list))`) shows strings are meant to be accepted. But the preceding line
reads the unbound name `shard` (a typo for `shards`) whenever `shards` is a
string, so every string argument raises `NameError` instead. -/
theorem C5_string_shards_raises (s : PyStr) :
    create_url_iterator (ShardsArg.pyStr s) = Except.error PyError.nameError := rfl

/-- C6: building the pipeline with any non-None cache directory fails with
`NameError` (the `FileCache(cache_dir=cache_dir, cache_size=cache_size, …)`
branch reads names that are not bound in `init_pipeline`'s scope), so
construction with a cache directory always raises; with no cache directory
and otherwise well-formed arguments (a list of shard URLs, callable
transformations, `check_empty` left at its default False), construction
succeeds and installs the direct streaming opener as the third stage. -/
theorem C6_cache_dir_branch (d : PyStr) (ce : Bool) (src : StageKind) (l : List PyStr)
    (fs : List (Sample Nat → Sample Nat)) (fsz : Option Nat) (kp : Bool) :
    init_pipeline src (some d) ce = Except.error PyError.nameError
    ∧ mkSimpleDataset (ShardsArg.pyList l) (TransArg.listOf (fs.map PyObj.callable))
        (some d) ce fsz kp = Except.error PyError.nameError
    ∧ ∃ ds : SimpleDataset Nat,
        mkSimpleDataset (ShardsArg.pyList l) (TransArg.listOf (fs.map PyObj.callable))
          none false fsz kp = Except.ok ds
        ∧ ds.pipeline = [StageKind.simpleShardList l, StageKind.splitByWorker,
            StageKind.streamingOpen, StageKind.tarFileExpander, StageKind.groupByKeys] := by
  have hts := interpList_callables fs
  refine ⟨rfl, ?_, ?_⟩
  · simp [mkSimpleDataset, interpret_transformations, hts, create_url_iterator, init_pipeline]
  · simp only [mkSimpleDataset, interpret_transformations, hts, create_url_iterator,
      init_pipeline, Bool.false_eq_true, if_false]
    exact ⟨_, rfl, rfl⟩

/-- C7 (the claim is right, the code has a slip): the spec requires
teardown to close every closeable stage in reverse pipeline order, clear
the cache state, and be safe on a freshly constructed dataset. The code
does run the reverse-order close calls (stages 2 then 0 in a pipeline where
stages 0 and 2 are closeable), but then executes `self.cache.clear()`, and
no code path ever assigns `self.cache` — the constructor leaves the
attribute absent — so `close()` raises `AttributeError` even on a freshly
constructed dataset. -/
theorem C7_close_raises :
    closeDataset
        [{ hasClose := true, id := 0 }, { hasClose := false, id := 1 },
         { hasClose := true, id := 2 }] none
      = ([2, 0], Except.error PyError.attributeError)
    ∧ Except.map (fun ds : SimpleDataset Nat => ds.cache)
        (mkSimpleDataset (ShardsArg.pyList [['a']])
          (TransArg.listOf ([] : List (PyObj (Sample Nat)))) none false none false)
      = Except.ok none :=
  ⟨rfl, rfl⟩

/-- C8 counterexample: the claim says `get_stats` fails exactly when no
cache stage is present, and returns the counters when a cache stage is
there. But `self.cache` is never assigned by any code path, so `get_stats`
fails with `AttributeError` even on a dataset whose pipeline contains the
`FileCache` stage — and no such dataset can even be built, since
construction with a cache directory itself raises `NameError`. -/
theorem C8_counterexample :
    get_stats { total_size := -1, transformations := ([] : List (Sample Nat → Sample Nat)),
                pipeline := [StageKind.simpleShardList [['a']], StageKind.splitByWorker,
                  StageKind.fileCache, StageKind.tarFileExpander, StageKind.groupByKeys],
                epoch := -1, force_size := none, keep := false, cache := none }
      = Except.error PyError.attributeError
    ∧ StageKind.fileCache ∈ [StageKind.simpleShardList [['a']], StageKind.splitByWorker,
        StageKind.fileCache, StageKind.tarFileExpander, StageKind.groupByKeys]
    ∧ mkSimpleDataset (ShardsArg.pyList [['a']])
        (TransArg.listOf ([] : List (PyObj (Sample Nat)))) (some ['c']) false none false
      = Except.error PyError.nameError := by
  refine ⟨rfl, ?_, rfl⟩
  decide

/-- C8 (amended): `get_stats` fails with an attribute-absence error on
every constructible dataset, whether or not a cache stage is present,
because nothing ever assigns the `cache` attribute; in particular it fails
on every cache-less dataset, as the claim says, and no cache-backed dataset
exists at all, since supplying a cache directory makes construction raise
`NameError`. -/
theorem C8_get_stats_amended :
    (∀ (shards : ShardsArg) (ti : TransArg (Sample Nat)) (cd : Option PyStr)
        (ce : Bool) (fsz : Option Nat) (kp : Bool) (ds : SimpleDataset Nat),
        mkSimpleDataset shards ti cd ce fsz kp = Except.ok ds →
        get_stats ds = Except.error PyError.attributeError)
    ∧ ∀ (l : List PyStr) (fs : List (Sample Nat → Sample Nat)) (d : PyStr)
        (ce : Bool) (fsz : Option Nat) (kp : Bool),
        mkSimpleDataset (ShardsArg.pyList l) (TransArg.listOf (fs.map PyObj.callable))
          (some d) ce fsz kp = Except.error PyError.nameError := by
  constructor
  · intro shards ti cd ce fsz kp ds h
    unfold mkSimpleDataset at h
    split at h
    · exact Except.noConfusion h
    · split at h
      · exact Except.noConfusion h
      · split at h
        · exact Except.noConfusion h
        · cases h
          rfl
  · intro l fs d ce fsz kp
    have hts := interpList_callables fs
    simp [mkSimpleDataset, interpret_transformations, hts, create_url_iterator, init_pipeline]

/-- C8 witness: on a concrete cache-less dataset actually produced by the
constructor, `get_stats` raises the attribute-absence error. -/
theorem C8_witness :
    get_stats { total_size := -1, transformations := ([] : List (Sample Nat → Sample Nat)),
                pipeline := [StageKind.simpleShardList [['a']], StageKind.splitByWorker,
                  StageKind.streamingOpen, StageKind.tarFileExpander, StageKind.groupByKeys],
                epoch := -1, force_size := none, keep := false, cache := none }
      = Except.error PyError.attributeError :=
  C8_get_stats_amended.1 (ShardsArg.pyList [['a']])
    (TransArg.listOf ([] : List (PyObj (Sample Nat)))) none false none false _ rfl

/-- C9: the transformation interpreter returns a one-element sequence when
given a single callable, and raises `AssertionError` whenever the input
list contains a non-callable anywhere (so dataset construction fails); it
is a pure function of its input, so it has no side effects by
construction. -/
theorem C9_interpret_transformations :
    (∀ f : Sample Nat → Sample Nat,
        interpret_transformations (TransArg.single (PyObj.callable f)) = Except.ok [f])
    ∧ ∀ l : List (PyObj (Sample Nat)), PyObj.notCallable ∈ l →
        interpret_transformations (TransArg.listOf l) = Except.error PyError.assertionError := by
  constructor
  · intro f
    rfl
  · intro l hl
    show interpList l = Except.error PyError.assertionError
    induction l with
    | nil => exact absurd hl (List.not_mem_nil _)
    | cons o rest ih =>
        cases o with
        | notCallable => rfl
        | callable g =>
            have hmem : PyObj.notCallable ∈ rest := by
              rcases List.mem_cons.mp hl with he | he
              · exact absurd he (by intro he'; exact PyObj.noConfusion he')
              · exact he
            rw [show interpList (PyObj.callable g :: rest)
                  = (interpList rest).map (fun r => g :: r) from rfl]
            rw [ih hmem]
            rfl

/-- C9 witness: a list whose second element is not callable makes the
interpreter raise the assertion error. -/
theorem C9_witness :
    interpret_transformations
        (TransArg.listOf [PyObj.callable (fun s : Sample Nat => s), PyObj.notCallable])
      = Except.error PyError.assertionError :=
  C9_interpret_transformations.2
    [PyObj.callable (fun s : Sample Nat => s), PyObj.notCallable]
    (List.Mem.tail _ (List.Mem.head _))

end Wsds
